import Mathlib

/-!
# Release lifecycle state machine of kubernetes/deployment-manager

A shallow embedding of the release-tracking core described in `spec.md`
(§3 Data model, §4.1 Release Store, §4.2 Hook Executor, §4.4 Release
Transition Controller).  The implementation of the transition controller is
not shipped under `src/` — only its tests are (`src/unnamed/part_002`,
the `tiller` rollback/uninstall tests) — so the operations below are
modelled from the specification's words, and, where the tests in
`src/unnamed/part_002` pin a concrete behaviour, from those pins.
-/

namespace DeploymentManager

/-- Release status codes (spec §3 Data model, "Status" enum). -/
inductive Status
  | unknown
  | deployed
  | deleted
  | superseded
  | failed
  | pendingInstall
  | pendingUpgrade
  | pendingRollback
  | pendingDelete
deriving DecidableEq

/-- Lifecycle hook trigger events (spec §3 Data model, "Hook" attributes). -/
inductive HookEvent
  | preInstall
  | postInstall
  | preUpgrade
  | postUpgrade
  | preRollback
  | postRollback
  | preDelete
  | postDelete
  | testRun
deriving DecidableEq

/-- A hook's last-run record (phase plus start/end instants, spec §3). -/
structure LastRun where
  phase : String
  startTime : Nat
  endTime : Nat
deriving DecidableEq

/-- A lifecycle hook (spec §3): manifest reference plus trigger events,
weight, and the mutable last-run record (`none` when the hook never ran). -/
structure Hook where
  name : String
  kind : String
  path : String
  manifest : String
  events : List HookEvent
  weight : Int
  lastRun : Option LastRun
deriving DecidableEq

/-- A release record, keyed by `(name, version)` (spec §3). -/
structure Release where
  name : String
  ns : String
  version : Nat
  manifest : String
  status : Status
  description : String
  hooks : List Hook
deriving DecidableEq

/-- The release store: the ordered collection of release records owned by
the Release Store component (spec §3 Ownership, §4.1). -/
structure Store where
  releases : List Release
deriving DecidableEq

/-- Modelled from the spec §4.1: `Get(name, version)` returns the record
with that key, or a not-found result if absent. -/
def Store.get (s : Store) (n : String) (v : Nat) : Option Release :=
  s.releases.find? (fun r => r.name == n && r.version == v)

/-- Modelled from the spec §4.1: `Create(release)` fails if the
`(name, version)` key already exists; otherwise the record is appended. -/
def Store.create (s : Store) (r : Release) : Option Store :=
  match s.get r.name r.version with
  | some _ => none
  | none => some ⟨s.releases ++ [r]⟩

/-- The version numbers stored for a given release name, in storage order
(spec §4.1 `History(name)` projected to versions). -/
def Store.versionsFor (s : Store) (n : String) : List Nat :=
  (s.releases.filter (fun r => r.name == n)).map Release.version

/-- Modelled from the spec §4.1: the highest version number on record for a
name (`Last(name)`), `0` when the name has no records. -/
def Store.lastVersion (s : Store) (n : String) : Nat :=
  (s.versionsFor n).foldl max 0

/-- Modelled from the spec §4.1: `Last(name)` returns the highest-version
record regardless of status, or a not-found result if the name is unknown. -/
def Store.last (s : Store) (n : String) : Option Release :=
  s.get n (s.lastVersion n)

/-- Modelled from the spec §4.1: all records for a name currently in
`deployed` status. -/
def Store.deployedAll (s : Store) (n : String) : List Release :=
  s.releases.filter (fun r => r.name == n && r.status == Status.deployed)

/-- Modelled from the spec §4.2 Hook Executor: running one hook for an
event applies its manifest to the cluster and records the outcome on the
hook's last-run field; hooks whose event set does not contain the event are
untouched. -/
def runHook (ev : HookEvent) (h : Hook) : Hook :=
  if ev ∈ h.events then { h with lastRun := some ⟨"Succeeded", 0, 0⟩ } else h

/-- Modelled from the spec §4.2: `Execute(release, event)` runs every hook
of the set whose event set contains the event.  The second component counts
the cluster calls the executor performs (one per hook actually run). -/
def execHooks (hs : List Hook) (ev : HookEvent) : List Hook × Nat :=
  (hs.map (runHook ev), (hs.filter (fun h => decide (ev ∈ h.events))).length)

/-- Modelled from the spec §4.2: the hook set after an event batch; with
`DisableHooks` the executor is short-circuited entirely and the hooks are
returned untouched. -/
def hooksAfter (disable : Bool) (ev : HookEvent) (hs : List Hook) : List Hook :=
  if disable then hs else (execHooks hs ev).1

/-- Modelled from the spec §4.2: cluster calls made by the Hook Executor
for one event batch; zero when `DisableHooks` short-circuits it. -/
def hookCalls (disable : Bool) (ev : HookEvent) (hs : List Hook) : Nat :=
  if disable then 0 else (execHooks hs ev).2

/-- Marks every `deployed` record of a name `superseded`, leaving every
other record alone (spec §4.4: the prior `deployed` version transitions to
`superseded` when a new version takes over). -/
def supersedeRel (n : String) (r : Release) : Release :=
  if r.name == n && r.status == Status.deployed then { r with status := Status.superseded } else r

/-- Store-level form of `supersedeRel`. -/
def supersedeDeployed (s : Store) (n : String) : Store :=
  ⟨s.releases.map (supersedeRel n)⟩

/-- Marks the record with key `(n, v)` `superseded`, leaving every other
record alone (pinned by `TestRollbackDeleted` in `src/unnamed/part_002`:
after a successful rollback the latest record is `superseded` even when its
previous status was `deleted`). -/
def supersedeAt (n : String) (v : Nat) (r : Release) : Release :=
  if r.name == n && r.version == v then { r with status := Status.superseded } else r

/-- Store-level form of `supersedeAt`. -/
def supersede (s : Store) (n : String) (v : Nat) : Store :=
  ⟨s.releases.map (supersedeAt n v)⟩

/-- Appends a freshly created record (spec §4.1 `Create` on a fresh key). -/
def insertRecord (s : Store) (r : Release) : Store :=
  ⟨s.releases ++ [r]⟩

/-- A rollback request (spec §6 `Rollback(name, version, options)`;
`version = 0` means "previous", an empty description means none given). -/
structure RollbackReq where
  name : String
  version : Nat
  disableHooks : Bool
  description : String
deriving DecidableEq

/-- Modelled from the spec §4.4 Rollback and pinned by
`TestRollbackLatestSuperseded` in `src/unnamed/part_002`: the default
rollback target is the most recent version strictly below the latest one
whose status is `deployed` or `superseded`; `0` when no such version
exists. -/
def rollbackTargetVersion (s : Store) (n : String) (lastV : Nat) : Nat :=
  ((s.releases.filter (fun r => r.name == n &&
      (r.status == Status.deployed || r.status == Status.superseded) &&
      decide (r.version < lastV))).map Release.version).foldl max 0

/-- The target version a rollback request resolves to: the explicit version
when one is given, otherwise the default of `rollbackTargetVersion`
(spec §4.4 Rollback: `0` means "previous"). -/
def requestedTarget (s : Store) (req : RollbackReq) : Nat :=
  if req.version = 0 then rollbackTargetVersion s req.name (s.lastVersion req.name)
  else req.version

/-- Modelled from the spec §4.4 Rollback: the description of the new record
defaults to `"Rollback to <target version>"` unless a custom description is
supplied in the request. -/
def rollbackDescription (req : RollbackReq) (tv : Nat) : String :=
  if req.description = "" then "Rollback to " ++ toString tv else req.description

/-- Modelled from the spec §4.4 Rollback: the new release record created by
a rollback — next version number after the latest record (never reusing the
target's number), manifest and hooks copied from the target historical
version, `deployed` on success and `failed` on apply failure.  On success
both rollback hook batches have run over the copied hook set; on failure
only the pre-rollback batch has. -/
def rolledBackRelease (ok : Bool) (req : RollbackReq) (tv : Nat) (current target : Release) :
    Release :=
  if ok then
    ⟨req.name, target.ns, current.version + 1, target.manifest, Status.deployed,
      rollbackDescription req tv,
      hooksAfter req.disableHooks HookEvent.postRollback
        (hooksAfter req.disableHooks HookEvent.preRollback target.hooks)⟩
  else
    ⟨req.name, target.ns, current.version + 1, target.manifest, Status.failed,
      rollbackDescription req tv,
      hooksAfter req.disableHooks HookEvent.preRollback target.hooks⟩

/-- Modelled from the spec §4.4 Rollback: the store after the transition.
On success every previously `deployed` record of the name is `superseded`,
the latest record is `superseded` as well (pinned by `TestRollbackDeleted`),
and the new `deployed` record is persisted.  On apply failure the
previously `deployed` records are still marked `superseded` (spec §4.4: the
system must not claim the old state is still accurate) and the new record
is persisted as `failed`. -/
def rollbackStoreAfter (ok : Bool) (s : Store) (req : RollbackReq) (current target : Release) :
    Store :=
  insertRecord
    (if ok then supersede (supersedeDeployed s req.name) req.name current.version
     else supersedeDeployed s req.name)
    (rolledBackRelease ok req (requestedTarget s req) current target)

/-- Cluster calls made by the Hook Executor during a rollback: the
pre-rollback batch, plus the post-rollback batch when the apply phase
succeeded; zero with `DisableHooks` (spec §4.2). -/
def rollbackCalls (ok : Bool) (req : RollbackReq) (target : Release) : Nat :=
  if ok then
    hookCalls req.disableHooks HookEvent.preRollback target.hooks +
      hookCalls req.disableHooks HookEvent.postRollback
        (hooksAfter req.disableHooks HookEvent.preRollback target.hooks)
  else hookCalls req.disableHooks HookEvent.preRollback target.hooks

/-- Outcome of a lifecycle transition: whether an error was returned, the
new release record returned alongside it (spec §7: a failed operation still
returns the partially-updated record), the resulting store, and the number
of cluster calls the Hook Executor made. -/
structure RollbackResult where
  err : Bool
  release : Option Release
  store : Store
  clusterHookCalls : Nat
deriving DecidableEq

/-- Modelled from the spec §4.4 Rollback preconditions: the name must have
a latest record, the resolved target version must exist in history, and it
must differ from the latest record's version (pinned by
`TestRollbackDeleted`, which successfully targets the version that is still
`deployed`, the check is against the latest record, not the deployed one). -/
def prepareRollback (s : Store) (req : RollbackReq) : Option (Release × Release) :=
  match s.last req.name with
  | none => none
  | some current =>
    match s.get req.name (requestedTarget s req) with
    | none => none
    | some target =>
      if requestedTarget s req = current.version then none
      else some (current, target)

/-- The effect phase of a rollback, after the preconditions held. -/
def performRollback (ok : Bool) (s : Store) (req : RollbackReq) (current target : Release) :
    RollbackResult :=
  ⟨!ok, some (rolledBackRelease ok req (requestedTarget s req) current target),
    rollbackStoreAfter ok s req current target, rollbackCalls ok req target⟩

/-- Modelled from the spec §4.4 Rollback (implementation not under `src/`;
behaviour pinned by the tests in `src/unnamed/part_002`).  `ok` abstracts
the Diff/Apply Engine outcome: `true` when the apply phase succeeds. -/
def rollback (ok : Bool) (s : Store) (req : RollbackReq) : RollbackResult :=
  match prepareRollback s req with
  | none => ⟨true, none, s, 0⟩
  | some (current, target) => performRollback ok s req current target

/-- An uninstall request (spec §6 `Uninstall(name, options)`). -/
structure UninstallReq where
  name : String
  disableHooks : Bool
  keep : Bool
deriving DecidableEq

/-- Marks the record with key `(n, v)` `deleted` with its post-hook hook
set, leaving every other record alone. -/
def markDeleted (n : String) (v : Nat) (hs : List Hook) (r : Release) : Release :=
  if r.name == n && r.version == v then { r with status := Status.deleted, hooks := hs } else r

/-- Modelled from the spec §4.4 Uninstall: a record for the name must
exist; pre-delete and post-delete hooks run unless disabled, the resources
are deleted from the cluster (`keep` skips only that cluster step, which is
outside the store), and the latest record is marked `deleted` (pinned by
`TestRollbackDeleted`: the latest record is the one marked, whatever its
status).  Returns the new store and the executor's cluster-call count. -/
def uninstall (s : Store) (req : UninstallReq) : Option (Store × Nat) :=
  match s.last req.name with
  | none => none
  | some current =>
    some (⟨s.releases.map (markDeleted req.name current.version
        (hooksAfter req.disableHooks HookEvent.postDelete
          (hooksAfter req.disableHooks HookEvent.preDelete current.hooks)))⟩,
      hookCalls req.disableHooks HookEvent.preDelete current.hooks +
        hookCalls req.disableHooks HookEvent.postDelete
          (hooksAfter req.disableHooks HookEvent.preDelete current.hooks))

/-- An install request (spec §6 `Install(name, chart, values, options)`;
the rendered manifest and hooks stand in for the chart and values, the
renderer being an external collaborator). -/
structure InstallReq where
  name : String
  ns : String
  manifest : String
  hooks : List Hook
  disableHooks : Bool
deriving DecidableEq

/-- Modelled from the spec §4.4 Install: the name must be unused; the new
record is created at version 1, pre-install hooks run, the manifests are
applied (outcome abstracted by `ok`), post-install hooks run on success,
and the record is persisted `deployed` on success or `failed` on failure. -/
def install (ok : Bool) (s : Store) (req : InstallReq) : Option (Release × Store × Nat) :=
  if (s.releases.filter (fun r => r.name == req.name)).isEmpty then
    if ok then
      let rel : Release := ⟨req.name, req.ns, 1, req.manifest, Status.deployed, "Install complete",
        hooksAfter req.disableHooks HookEvent.postInstall
          (hooksAfter req.disableHooks HookEvent.preInstall req.hooks)⟩
      some (rel, insertRecord s rel,
        hookCalls req.disableHooks HookEvent.preInstall req.hooks +
          hookCalls req.disableHooks HookEvent.postInstall
            (hooksAfter req.disableHooks HookEvent.preInstall req.hooks))
    else
      let rel : Release := ⟨req.name, req.ns, 1, req.manifest, Status.failed, "Install failed",
        hooksAfter req.disableHooks HookEvent.preInstall req.hooks⟩
      some (rel, insertRecord s rel, hookCalls req.disableHooks HookEvent.preInstall req.hooks)
  else none

/-- An upgrade request (spec §6 `Upgrade(name, chart, values, options)`). -/
structure UpgradeReq where
  name : String
  manifest : String
  hooks : List Hook
  disableHooks : Bool
deriving DecidableEq

/-- Modelled from the spec §4.4 Upgrade: a `deployed` record must exist;
the new record is created at `Last(name).version + 1`; on success it is
persisted `deployed` and every previously `deployed` record is
`superseded`; on failure it is persisted `failed`, and the previous record
is superseded only when a destructive apply step had begun (`destructive`
abstracts the spec's implementation-policy threshold). -/
def upgrade (ok destructive : Bool) (s : Store) (req : UpgradeReq) :
    Option (Release × Store × Nat) :=
  match s.last req.name with
  | none => none
  | some current =>
    if (s.deployedAll req.name).isEmpty then none
    else if ok then
      let rel : Release := ⟨req.name, current.ns, current.version + 1, req.manifest,
        Status.deployed, "Upgrade complete",
        hooksAfter req.disableHooks HookEvent.postUpgrade
          (hooksAfter req.disableHooks HookEvent.preUpgrade req.hooks)⟩
      some (rel, insertRecord (supersedeDeployed s req.name) rel,
        hookCalls req.disableHooks HookEvent.preUpgrade req.hooks +
          hookCalls req.disableHooks HookEvent.postUpgrade
            (hooksAfter req.disableHooks HookEvent.preUpgrade req.hooks))
    else
      let rel : Release := ⟨req.name, current.ns, current.version + 1, req.manifest,
        Status.failed, "Upgrade failed",
        hooksAfter req.disableHooks HookEvent.preUpgrade req.hooks⟩
      some (rel, insertRecord (if destructive then supersedeDeployed s req.name else s) rel,
        hookCalls req.disableHooks HookEvent.preUpgrade req.hooks)

/-- Spec §3 invariant: for a given name, at most one stored release
version is in `deployed` status — any two `deployed` records of the same
name are the same version. -/
def uniqueDeployed (s : Store) : Prop :=
  ∀ r1 ∈ s.releases, ∀ r2 ∈ s.releases, r1.name = r2.name →
    r1.status = Status.deployed → r2.status = Status.deployed → r1.version = r2.version

/-- Spec §3 invariant: for every stored release name, the version numbers
form the contiguous sequence `1, 2, …, k`. -/
def contiguousVersions (s : Store) : Prop :=
  ∀ r ∈ s.releases, s.versionsFor r.name = List.range' 1 (s.versionsFor r.name).length

/-- The identity of a hook apart from its mutable last-run record. -/
def hookSpec (h : Hook) : String × String × String × String × List HookEvent × Int :=
  (h.name, h.kind, h.path, h.manifest, h.events, h.weight)

/-- Version 1 of the `TestRollbackLatestSuperseded` store: `superseded`. -/
def lsV1 : Release := ⟨"angry-panda", "default", 1, "m1", Status.superseded, "", []⟩

/-- Version 2 of the `TestRollbackLatestSuperseded` store: `failed`. -/
def lsV2 : Release := ⟨"angry-panda", "default", 2, "m2", Status.failed, "", []⟩

/-- Version 3 of the `TestRollbackLatestSuperseded` store: `deployed`. -/
def lsV3 : Release := ⟨"angry-panda", "default", 3, "m3", Status.deployed, "", []⟩

/-- The store of `TestRollbackLatestSuperseded` (src/unnamed/part_002,
lines 187–233): versions 1 `superseded`, 2 `failed`, 3 `deployed`. -/
def lsStore : Store := ⟨[lsV1, lsV2, lsV3]⟩

/-- The rollback request of `TestRollbackLatestSuperseded`: version
unspecified (0), hooks disabled, no custom description. -/
def lsReq : RollbackReq := ⟨"angry-panda", 0, true, ""⟩

/-- A hook like `manifestWithHook` of the test fixtures: triggered on
pre-install and pre-delete, never run. -/
def stubHook : Hook := ⟨"test-cm", "ConfigMap", "test-cm", "manifestWithHook",
  [HookEvent.preInstall, HookEvent.preDelete], 0, none⟩

/-- A hook like `manifestWithRollbackHooks` of the test fixtures:
triggered on pre-rollback and post-rollback, never run. -/
def rbHook : Hook := ⟨"test-cm", "ConfigMap", "test-cm", "manifestWithRollbackHooks",
  [HookEvent.preRollback, HookEvent.postRollback], 0, none⟩

/-- A concrete store like the one `TestRollbackRelease` builds: version 1
`superseded` with the stub hook, version 2 `deployed` with the rollback
hook. -/
def stubV1 : Release :=
  ⟨"angry-panda", "default", 1, "stub-manifest", Status.superseded, "", [stubHook]⟩

/-- Version 2 of the stub store: the currently deployed release. -/
def stubV2 : Release :=
  ⟨"angry-panda", "default", 2, "hello world", Status.deployed, "", [rbHook]⟩

/-- The two-release stub store. -/
def stubStore : Store := ⟨[stubV1, stubV2]⟩

/-- A rollback request with unspecified version and hooks enabled. -/
def stubReq : RollbackReq := ⟨"angry-panda", 0, false, ""⟩

/-- The release a successful rollback of `stubReq` creates on `stubStore`:
version 3, manifest and hooks copied from version 1. -/
def stubRollbackRel : Release :=
  ⟨"angry-panda", "default", 3, "stub-manifest", Status.deployed, "Rollback to 1", [stubHook]⟩

/-- The release a failed rollback of `stubReq` creates on `stubStore`. -/
def stubFailedRel : Release :=
  ⟨"angry-panda", "default", 3, "stub-manifest", Status.failed, "Rollback to 1", [stubHook]⟩

/-- A rollback request to the explicit version 1 with hooks disabled. -/
def c3Req : RollbackReq := ⟨"angry-panda", 1, true, ""⟩

/-- A rollback request with unspecified version and hooks disabled. -/
def c8Req : RollbackReq := ⟨"angry-panda", 0, true, ""⟩

section Lemmas

theorem le_foldl_max (l : List Nat) (a : Nat) : a ≤ l.foldl max a := by
  induction l generalizing a with
  | nil => exact Nat.le_refl a
  | cons x t ih => exact Nat.le_trans (Nat.le_max_left a x) (ih (max a x))

theorem mem_le_foldl_max (l : List Nat) (a x : Nat) (hx : x ∈ l) : x ≤ l.foldl max a := by
  induction l generalizing a with
  | nil => cases hx
  | cons y t ih =>
    rcases List.mem_cons.mp hx with h | h
    · subst h
      exact Nat.le_trans (Nat.le_max_right a x) (le_foldl_max t (max a x))
    · exact ih (max a y) h

theorem foldl_max_mem (l : List Nat) (a : Nat) : l.foldl max a = a ∨ l.foldl max a ∈ l := by
  induction l generalizing a with
  | nil => exact Or.inl rfl
  | cons x t ih =>
    simp only [List.foldl_cons]
    rcases ih (max a x) with h | h
    · rw [h]
      rcases Nat.le_total a x with hax | hxa
      · exact Or.inr (by rw [Nat.max_eq_right hax]; exact List.mem_cons_self x t)
      · exact Or.inl (Nat.max_eq_left hxa)
    · exact Or.inr (List.mem_cons_of_mem x h)

theorem foldl_max_range1 (k : Nat) : (List.range' 1 k).foldl max 0 = k := by
  induction k with
  | zero => rfl
  | succ n ih =>
    rw [List.range'_concat, List.foldl_append, ih]
    simp only [List.foldl_cons, List.foldl_nil]
    rw [Nat.max_eq_right (by omega)]
    omega

theorem get_some {s : Store} {n : String} {v : Nat} {r : Release}
    (h : s.get n v = some r) : r ∈ s.releases ∧ r.name = n ∧ r.version = v := by
  have hm := List.mem_of_find?_eq_some h
  have hp := List.find?_some h
  simp only [Bool.and_eq_true, beq_iff_eq] at hp
  exact ⟨hm, hp.1, hp.2⟩

theorem last_some {s : Store} {n : String} {c : Release} (h : s.last n = some c) :
    c ∈ s.releases ∧ c.name = n ∧ c.version = s.lastVersion n :=
  get_some h

theorem supersedeRel_name (n : String) (r : Release) : (supersedeRel n r).name = r.name := by
  unfold supersedeRel
  split <;> rfl

theorem supersedeRel_version (n : String) (r : Release) :
    (supersedeRel n r).version = r.version := by
  unfold supersedeRel
  split <;> rfl

theorem supersedeRel_of_ne {n : String} {r : Release} (h : r.name ≠ n) :
    supersedeRel n r = r := by
  simp [supersedeRel, h]

theorem supersedeRel_deployed {n : String} {r : Release}
    (h : (supersedeRel n r).status = Status.deployed) : supersedeRel n r = r ∧ r.name ≠ n := by
  unfold supersedeRel at h ⊢
  split at h
  · simp at h
  · rename_i hguard
    refine ⟨by rw [if_neg hguard], ?_⟩
    intro hn
    apply hguard
    simp [hn, h]

theorem supersedeAt_name (n : String) (v : Nat) (r : Release) :
    (supersedeAt n v r).name = r.name := by
  unfold supersedeAt
  split <;> rfl

theorem supersedeAt_version (n : String) (v : Nat) (r : Release) :
    (supersedeAt n v r).version = r.version := by
  unfold supersedeAt
  split <;> rfl

theorem supersedeAt_of_ne {n : String} {v : Nat} {r : Release} (h : r.name ≠ n) :
    supersedeAt n v r = r := by
  simp [supersedeAt, h]

theorem supersedeAt_deployed {n : String} {v : Nat} {r : Release}
    (h : (supersedeAt n v r).status = Status.deployed) : supersedeAt n v r = r := by
  unfold supersedeAt at h ⊢
  split at h
  · simp at h
  · rename_i hguard
    rw [if_neg hguard]

theorem markDeleted_name (n : String) (v : Nat) (hs : List Hook) (r : Release) :
    (markDeleted n v hs r).name = r.name := by
  unfold markDeleted
  split <;> rfl

theorem markDeleted_version (n : String) (v : Nat) (hs : List Hook) (r : Release) :
    (markDeleted n v hs r).version = r.version := by
  unfold markDeleted
  split <;> rfl

theorem markDeleted_of_ne {n : String} {v : Nat} {hs : List Hook} {r : Release}
    (h : r.name ≠ n) : markDeleted n v hs r = r := by
  simp [markDeleted, h]

theorem markDeleted_deployed {n : String} {v : Nat} {hs : List Hook} {r : Release}
    (h : (markDeleted n v hs r).status = Status.deployed) : markDeleted n v hs r = r := by
  unfold markDeleted at h ⊢
  split at h
  · simp at h
  · rename_i hguard
    rw [if_neg hguard]

theorem mem_supersedeDeployed {s : Store} {n : String} {x : Release}
    (hx : x ∈ (supersedeDeployed s n).releases) (hdep : x.status = Status.deployed) :
    x ∈ s.releases ∧ x.name ≠ n := by
  rcases List.mem_map.mp hx with ⟨r, hr, hfr⟩
  have hd : (supersedeRel n r).status = Status.deployed := by rw [hfr]; exact hdep
  rcases supersedeRel_deployed hd with ⟨heq, hne⟩
  rw [heq] at hfr
  subst hfr
  exact ⟨hr, hne⟩

theorem mem_supersede_supersedeDeployed {s : Store} {n : String} {v : Nat} {x : Release}
    (hx : x ∈ (supersede (supersedeDeployed s n) n v).releases)
    (hdep : x.status = Status.deployed) :
    x ∈ s.releases ∧ x.name ≠ n := by
  rcases List.mem_map.mp hx with ⟨y, hy, hgy⟩
  have hd : (supersedeAt n v y).status = Status.deployed := by rw [hgy]; exact hdep
  have heq := supersedeAt_deployed hd
  rw [heq] at hgy
  subst hgy
  exact mem_supersedeDeployed hy hdep

theorem superseded_image_mem {s : Store} {n : String} {r : Release}
    (hr : r ∈ s.releases) (hname : r.name = n) (hdep : r.status = Status.deployed) :
    { r with status := Status.superseded } ∈ (supersedeDeployed s n).releases := by
  have heq : supersedeRel n r = { r with status := Status.superseded } := by
    simp [supersedeRel, hname, hdep]
  exact heq ▸ List.mem_map_of_mem (supersedeRel n) hr

theorem superseded_image_mem2 {s : Store} {n : String} {v : Nat} {r : Release}
    (hr : r ∈ s.releases) (hname : r.name = n) (hdep : r.status = Status.deployed) :
    { r with status := Status.superseded } ∈
      (supersede (supersedeDeployed s n) n v).releases := by
  have h1 := superseded_image_mem hr hname hdep
  have h2 : supersedeAt n v { r with status := Status.superseded }
      = { r with status := Status.superseded } := by
    unfold supersedeAt
    split <;> rfl
  exact h2 ▸ List.mem_map_of_mem (supersedeAt n v) h1

theorem versionsFor_mapRel (f : Release → Release) (hn : ∀ r, (f r).name = r.name)
    (hv : ∀ r, (f r).version = r.version) (l : List Release) (n : String) :
    Store.versionsFor ⟨l.map f⟩ n = Store.versionsFor ⟨l⟩ n := by
  unfold Store.versionsFor
  induction l with
  | nil => rfl
  | cons r t ih =>
    simp only [List.map_cons, List.filter_cons, hn r]
    by_cases h : (r.name == n) = true
    · simp only [h, if_true, List.map_cons, hv r]
      rw [ih]
    · simp only [h, if_false, Bool.false_eq_true]
      exact ih

theorem versionsFor_insert (s : Store) (r : Release) (n : String) :
    (insertRecord s r).versionsFor n =
      if r.name == n then s.versionsFor n ++ [r.version] else s.versionsFor n := by
  unfold insertRecord Store.versionsFor
  rw [List.filter_append, List.map_append]
  by_cases h : (r.name == n) = true
  · simp [h]
  · simp [h]

theorem filter_ne_mapRel (f : Release → Release) (n : String)
    (hn : ∀ r, (f r).name = r.name) (hid : ∀ r, r.name ≠ n → f r = r) (l : List Release) :
    (l.map f).filter (fun r => !(r.name == n)) = l.filter (fun r => !(r.name == n)) := by
  induction l with
  | nil => rfl
  | cons r t ih =>
    simp only [List.map_cons, List.filter_cons, hn r]
    by_cases h : r.name = n
    · simp [h, ih]
    · rw [hid r h]
      simp [h, ih]

theorem filter_ne_insert (s : Store) (r : Release) (n : String) (h : r.name = n) :
    (insertRecord s r).releases.filter (fun x => !(x.name == n)) =
      s.releases.filter (fun x => !(x.name == n)) := by
  unfold insertRecord
  rw [List.filter_append]
  simp [h]

theorem prepareRollback_some {s : Store} {req : RollbackReq} {current target : Release}
    (h : prepareRollback s req = some (current, target)) :
    s.last req.name = some current ∧ s.get req.name (requestedTarget s req) = some target ∧
      requestedTarget s req ≠ current.version := by
  unfold prepareRollback at h
  split at h
  · simp at h
  · rename_i c hl
    split at h
    · simp at h
    · rename_i t hg
      split at h
      · simp at h
      · rename_i he
        simp only [Option.some.injEq, Prod.mk.injEq] at h
        obtain ⟨hc, ht⟩ := h
        subst hc
        subst ht
        exact ⟨hl, hg, he⟩

theorem rollback_release_some {ok : Bool} {s : Store} {req : RollbackReq} {rel : Release}
    (h : (rollback ok s req).release = some rel) :
    ∃ current target, prepareRollback s req = some (current, target) ∧
      rel = rolledBackRelease ok req (requestedTarget s req) current target := by
  unfold rollback at h
  cases hp : prepareRollback s req with
  | none => rw [hp] at h; simp at h
  | some ct =>
    rw [hp] at h
    obtain ⟨current, target⟩ := ct
    refine ⟨current, target, rfl, ?_⟩
    unfold performRollback at h
    simp only [Option.some.injEq] at h
    exact h.symm

theorem rollback_store_cases (ok : Bool) (s : Store) (req : RollbackReq) :
    (rollback ok s req).store = s ∨
      ∃ current target, prepareRollback s req = some (current, target) ∧
        (rollback ok s req).store = rollbackStoreAfter ok s req current target := by
  unfold rollback
  cases hp : prepareRollback s req with
  | none => exact Or.inl rfl
  | some ct =>
    obtain ⟨c, t⟩ := ct
    exact Or.inr ⟨c, t, rfl, rfl⟩

theorem rolledBackRelease_fields (ok : Bool) (req : RollbackReq) (tv : Nat)
    (current target : Release) :
    (rolledBackRelease ok req tv current target).name = req.name ∧
    (rolledBackRelease ok req tv current target).ns = target.ns ∧
    (rolledBackRelease ok req tv current target).version = current.version + 1 ∧
    (rolledBackRelease ok req tv current target).manifest = target.manifest ∧
    (rolledBackRelease ok req tv current target).description = rollbackDescription req tv ∧
    (rolledBackRelease ok req tv current target).status
      = (if ok then Status.deployed else Status.failed) := by
  cases ok <;> simp [rolledBackRelease]

theorem runHook_hookSpec (ev : HookEvent) (h : Hook) : hookSpec (runHook ev h) = hookSpec h := by
  unfold runHook
  split <;> rfl

theorem runHook_events (ev : HookEvent) (h : Hook) : (runHook ev h).events = h.events := by
  unfold runHook
  split <;> rfl

theorem runHook_lastRun {ev : HookEvent} {h : Hook}
    (hne : (runHook ev h).lastRun ≠ h.lastRun) : ev ∈ h.events := by
  unfold runHook at hne
  by_cases hm : ev ∈ h.events
  · exact hm
  · rw [if_neg hm] at hne
    exact absurd rfl hne

theorem hooksAfter_true (ev : HookEvent) (hs : List Hook) : hooksAfter true ev hs = hs := rfl

theorem hookCalls_true (ev : HookEvent) (hs : List Hook) : hookCalls true ev hs = 0 := rfl

theorem forall2_map_self {α : Type} (P : α → α → Prop) (f : α → α)
    (hp : ∀ x, P x (f x)) (l : List α) : List.Forall₂ P l (l.map f) := by
  induction l with
  | nil => exact List.Forall₂.nil
  | cons a t ih => exact List.Forall₂.cons (hp a) ih

theorem forall2_refl_self {α : Type} (P : α → α → Prop) (hp : ∀ x, P x x) (l : List α) :
    List.Forall₂ P l l := by
  induction l with
  | nil => exact List.Forall₂.nil
  | cons a t ih => exact List.Forall₂.cons (hp a) ih

theorem forall2_map_map {α : Type} (P : α → α → Prop) (f g : α → α)
    (hp : ∀ x, P x (g (f x))) (l : List α) : List.Forall₂ P l ((l.map f).map g) := by
  induction l with
  | nil => exact List.Forall₂.nil
  | cons a t ih => exact List.Forall₂.cons (hp a) ih

theorem rollbackStoreAfter_false (s : Store) (req : RollbackReq) (current target : Release) :
    rollbackStoreAfter false s req current target =
      insertRecord (supersedeDeployed s req.name)
        (rolledBackRelease false req (requestedTarget s req) current target) := rfl

theorem rollbackStoreAfter_true (s : Store) (req : RollbackReq) (current target : Release) :
    rollbackStoreAfter true s req current target =
      insertRecord (supersede (supersedeDeployed s req.name) req.name current.version)
        (rolledBackRelease true req (requestedTarget s req) current target) := rfl

theorem mem_name_of_mapRel {f : Release → Release} (hn : ∀ r, (f r).name = r.name)
    {l : List Release} {x : Release} (hx : x ∈ l.map f) : ∃ y ∈ l, y.name = x.name := by
  rcases List.mem_map.mp hx with ⟨y, hy, hey⟩
  exact ⟨y, hy, by rw [← hey, hn]⟩

theorem version_mem_versionsFor {s : Store} {n : String} {r : Release}
    (hr : r ∈ s.releases) (hn : r.name = n) : r.version ∈ s.versionsFor n := by
  unfold Store.versionsFor
  exact List.mem_map_of_mem _ (List.mem_filter.mpr ⟨hr, by simp [hn]⟩)

theorem version_le_lastVersion {s : Store} {n : String} {r : Release}
    (hr : r ∈ s.releases) (hn : r.name = n) : r.version ≤ s.lastVersion n :=
  mem_le_foldl_max _ 0 _ (version_mem_versionsFor hr hn)

theorem isEmpty_filter_name {l : List Release} {n : String}
    (h : (l.filter (fun r => r.name == n)).isEmpty = true) :
    ∀ x ∈ l, x.name ≠ n := by
  intro x hx hn
  rw [List.isEmpty_iff] at h
  have hmem : x ∈ l.filter (fun r => r.name == n) := List.mem_filter.mpr ⟨hx, by simp [hn]⟩
  rw [h] at hmem
  cases hmem

theorem versionsFor_eq_nil_of_isEmpty {s : Store} {n : String}
    (h : (s.releases.filter (fun r => r.name == n)).isEmpty = true) :
    s.versionsFor n = [] := by
  unfold Store.versionsFor
  rw [List.isEmpty_iff.mp h]
  rfl

theorem versionsFor_supersedeDeployed (s : Store) (n m : String) :
    (supersedeDeployed s n).versionsFor m = s.versionsFor m :=
  versionsFor_mapRel _ (supersedeRel_name n) (supersedeRel_version n) s.releases m

theorem versionsFor_supersede (s : Store) (n : String) (v : Nat) (m : String) :
    (supersede s n v).versionsFor m = s.versionsFor m :=
  versionsFor_mapRel _ (supersedeAt_name n v) (supersedeAt_version n v) s.releases m

theorem versionsFor_markDeleted (s : Store) (n : String) (v : Nat) (hks : List Hook)
    (m : String) :
    Store.versionsFor ⟨s.releases.map (markDeleted n v hks)⟩ m = s.versionsFor m :=
  versionsFor_mapRel _ (markDeleted_name n v hks) (markDeleted_version n v hks) s.releases m

theorem uniqueDeployed_insert_fresh {s : Store} {rel : Release}
    (hs : uniqueDeployed s)
    (hnone : ∀ x ∈ s.releases, x.name = rel.name → x.status ≠ Status.deployed) :
    uniqueDeployed (insertRecord s rel) := by
  intro r1 h1 r2 h2 hname hd1 hd2
  rcases List.mem_append.mp h1 with h1s | h1r
  · rcases List.mem_append.mp h2 with h2s | h2r
    · exact hs r1 h1s r2 h2s hname hd1 hd2
    · have h2e : r2 = rel := by simpa using h2r
      exact absurd hd1 (hnone r1 h1s (by rw [hname, h2e]))
  · have h1e : r1 = rel := by simpa using h1r
    rcases List.mem_append.mp h2 with h2s | h2r
    · exact absurd hd2 (hnone r2 h2s (by rw [← hname, h1e]))
    · have h2e : r2 = rel := by simpa using h2r
      rw [h1e, h2e]

theorem uniqueDeployed_insert_nondeployed {s : Store} {rel : Release}
    (hs : uniqueDeployed s) (hrel : rel.status ≠ Status.deployed) :
    uniqueDeployed (insertRecord s rel) := by
  intro r1 h1 r2 h2 hname hd1 hd2
  rcases List.mem_append.mp h1 with h1s | h1r
  · rcases List.mem_append.mp h2 with h2s | h2r
    · exact hs r1 h1s r2 h2s hname hd1 hd2
    · have h2e : r2 = rel := by simpa using h2r
      subst h2e
      exact absurd hd2 hrel
  · have h1e : r1 = rel := by simpa using h1r
    subst h1e
    exact absurd hd1 hrel

theorem uniqueDeployed_supersedeDeployed {s : Store} (n : String) (hs : uniqueDeployed s) :
    uniqueDeployed (supersedeDeployed s n) := by
  intro r1 h1 r2 h2 hname hd1 hd2
  obtain ⟨h1s, -⟩ := mem_supersedeDeployed h1 hd1
  obtain ⟨h2s, -⟩ := mem_supersedeDeployed h2 hd2
  exact hs r1 h1s r2 h2s hname hd1 hd2

theorem uniqueDeployed_supersede2 {s : Store} (n : String) (v : Nat) (hs : uniqueDeployed s) :
    uniqueDeployed (supersede (supersedeDeployed s n) n v) := by
  intro r1 h1 r2 h2 hname hd1 hd2
  obtain ⟨h1s, -⟩ := mem_supersede_supersedeDeployed h1 hd1
  obtain ⟨h2s, -⟩ := mem_supersede_supersedeDeployed h2 hd2
  exact hs r1 h1s r2 h2s hname hd1 hd2

theorem uniqueDeployed_markDeleted {s : Store} {n : String} {v : Nat} {hks : List Hook}
    (hs : uniqueDeployed s) :
    uniqueDeployed ⟨s.releases.map (markDeleted n v hks)⟩ := by
  intro r1 h1 r2 h2 hname hd1 hd2
  rcases List.mem_map.mp h1 with ⟨x1, hx1, he1⟩
  have hd1x : (markDeleted n v hks x1).status = Status.deployed := by rw [he1]; exact hd1
  rw [markDeleted_deployed hd1x] at he1
  subst he1
  rcases List.mem_map.mp h2 with ⟨x2, hx2, he2⟩
  have hd2x : (markDeleted n v hks x2).status = Status.deployed := by rw [he2]; exact hd2
  rw [markDeleted_deployed hd2x] at he2
  subst he2
  exact hs x1 hx1 x2 hx2 hname hd1 hd2

theorem no_deployed_after_supersedeDeployed {s : Store} {n : String} :
    ∀ x ∈ (supersedeDeployed s n).releases, x.name = n → x.status ≠ Status.deployed := by
  intro x hx hn hd
  exact (mem_supersedeDeployed hx hd).2 hn

theorem no_deployed_after_supersede2 {s : Store} {n : String} {v : Nat} :
    ∀ x ∈ (supersede (supersedeDeployed s n) n v).releases,
      x.name = n → x.status ≠ Status.deployed := by
  intro x hx hn hd
  exact (mem_supersede_supersedeDeployed hx hd).2 hn

theorem hooksAfter_forall2 (dh : Bool) (ev : HookEvent) (hs : List Hook) :
    List.Forall₂ (fun h0 h1 => hookSpec h0 = hookSpec h1 ∧
      (h1.lastRun ≠ h0.lastRun → ev ∈ h1.events)) hs (hooksAfter dh ev hs) := by
  cases dh with
  | true =>
    rw [hooksAfter_true]
    exact forall2_refl_self _ (fun h => ⟨rfl, fun hne => absurd rfl hne⟩) hs
  | false =>
    show List.Forall₂ _ hs (hs.map (runHook ev))
    apply forall2_map_self
    intro h
    refine ⟨(runHook_hookSpec ev h).symm, fun hne => ?_⟩
    rw [runHook_events]
    exact runHook_lastRun hne

theorem hooksAfter_two_forall2 (dh : Bool) (hs : List Hook) :
    List.Forall₂ (fun h0 h1 => hookSpec h0 = hookSpec h1 ∧
      (h1.lastRun ≠ h0.lastRun →
        HookEvent.preRollback ∈ h1.events ∨ HookEvent.postRollback ∈ h1.events))
      hs (hooksAfter dh HookEvent.postRollback (hooksAfter dh HookEvent.preRollback hs)) := by
  cases dh with
  | true =>
    rw [hooksAfter_true, hooksAfter_true]
    exact forall2_refl_self _ (fun h => ⟨rfl, fun hne => absurd rfl hne⟩) hs
  | false =>
    show List.Forall₂ _ hs
      ((hs.map (runHook HookEvent.preRollback)).map (runHook HookEvent.postRollback))
    apply forall2_map_map
    intro h
    refine ⟨?_, ?_⟩
    · rw [runHook_hookSpec, runHook_hookSpec]
    · intro hne
      rw [runHook_events, runHook_events]
      by_cases hc : (runHook HookEvent.preRollback h).lastRun = h.lastRun
      · rw [← hc] at hne
        have hp := runHook_lastRun hne
        rw [runHook_events] at hp
        exact Or.inr hp
      · exact Or.inl (runHook_lastRun hc)

theorem rollback_parts {s : Store} {req : RollbackReq} {current target : Release}
    (hp : prepareRollback s req = some (current, target)) (ok : Bool) :
    (rollback ok s req).err = !ok ∧
    (rollback ok s req).release
      = some (rolledBackRelease ok req (requestedTarget s req) current target) ∧
    (rollback ok s req).store = rollbackStoreAfter ok s req current target ∧
    (rollback ok s req).clusterHookCalls = rollbackCalls ok req target := by
  unfold rollback
  rw [hp]
  exact ⟨rfl, rfl, rfl, rfl⟩

theorem rolledBackRelease_hooks_disabled (ok : Bool) (req : RollbackReq) (tv : Nat)
    (current target : Release) (hd : req.disableHooks = true) :
    (rolledBackRelease ok req tv current target).hooks = target.hooks := by
  cases ok <;> simp [rolledBackRelease, hd, hooksAfter_true]

theorem mem_name_supersedeDeployed {s : Store} {n : String} :
    ∀ x ∈ (supersedeDeployed s n).releases, ∃ y ∈ s.releases, y.name = x.name := by
  intro x hx
  exact mem_name_of_mapRel (supersedeRel_name n) hx

theorem mem_name_supersede2 {s : Store} {n : String} {v : Nat} :
    ∀ x ∈ (supersede (supersedeDeployed s n) n v).releases,
      ∃ y ∈ s.releases, y.name = x.name := by
  intro x hx
  obtain ⟨z, hz, hzn⟩ := mem_name_of_mapRel (supersedeAt_name n v) hx
  obtain ⟨y, hy, hyn⟩ := mem_name_of_mapRel (supersedeRel_name n) hz
  exact ⟨y, hy, by rw [hyn, hzn]⟩

theorem lastVersion_of_contiguous {s : Store} {n : String}
    (hcontig : s.versionsFor n = List.range' 1 (s.versionsFor n).length) :
    s.lastVersion n = (s.versionsFor n).length := by
  unfold Store.lastVersion
  rw [hcontig, List.length_range']
  exact foldl_max_range1 _

theorem contiguous_insert_step {s s1 : Store} {rel : Release} (n : String)
    (hs : contiguousVersions s)
    (hvf : ∀ m, s1.versionsFor m = s.versionsFor m)
    (hmem : ∀ x ∈ s1.releases, ∃ y ∈ s.releases, y.name = x.name)
    (hname : rel.name = n)
    (hpresent : ∃ c, c ∈ s.releases ∧ c.name = n)
    (hver : rel.version = s.lastVersion n + 1) :
    contiguousVersions (insertRecord s1 rel) := by
  have hins : ∀ m, (insertRecord s1 rel).versionsFor m =
      (if rel.name == m then s.versionsFor m ++ [rel.version] else s.versionsFor m) := by
    intro m
    rw [versionsFor_insert]
    by_cases hm : (rel.name == m) = true
    · rw [if_pos hm, if_pos hm, hvf]
    · rw [if_neg hm, if_neg hm, hvf]
  obtain ⟨c, hc, hcn⟩ := hpresent
  have hcontig : s.versionsFor n = List.range' 1 (s.versionsFor n).length := by
    have hx := hs c hc
    rw [hcn] at hx
    exact hx
  intro r hr
  by_cases hrn : r.name = n
  · rw [hrn, hins n, if_pos (by simp [hname])]
    rw [hver, lastVersion_of_contiguous hcontig, hcontig]
    simp only [List.length_append, List.length_range', List.length_singleton]
    rw [List.range'_concat]
    simp [Nat.add_comm]
  · have hbeq : ¬((rel.name == r.name) = true) := by
      simp only [beq_iff_eq, hname]
      exact fun h => hrn h.symm
    rw [hins r.name, if_neg hbeq]
    rcases List.mem_append.mp hr with hrs | hrr
    · obtain ⟨y, hy, hyn⟩ := hmem r hrs
      have hx := hs y hy
      rw [hyn] at hx
      exact hx
    · have heq : r = rel := by simpa using hrr
      rw [heq] at hrn
      exact absurd hname hrn

end Lemmas

section Claims

/-- C3: every rollback to an existing explicit target version V creates a
new release record at version `Last(name) + 1` — strictly above V, so V's
version number is never reused — whose manifest equals the manifest stored
at version V. -/
theorem c3_rollback_copies_target (ok : Bool) (s : Store) (req : RollbackReq)
    (rel target : Release) (hv : req.version ≠ 0)
    (ht : s.get req.name req.version = some target)
    (hrel : (rollback ok s req).release = some rel) :
    rel.version = s.lastVersion req.name + 1 ∧ req.version < rel.version ∧
      rel.manifest = target.manifest := by
  obtain ⟨current, target2, hp, hshape⟩ := rollback_release_some hrel
  obtain ⟨hlast, hget, -⟩ := prepareRollback_some hp
  have htv : requestedTarget s req = req.version := by
    unfold requestedTarget
    rw [if_neg hv]
  rw [htv] at hget
  rw [hget] at ht
  have ht2 : target2 = target := Option.some.inj ht
  subst ht2
  obtain ⟨-, -, hcv⟩ := last_some hlast
  obtain ⟨-, -, hver, hman, -, -⟩ :=
    rolledBackRelease_fields ok req (requestedTarget s req) current target2
  obtain ⟨htm, htn, htver⟩ := get_some hget
  have hle : req.version ≤ s.lastVersion req.name := by
    rw [← htver]
    exact version_le_lastVersion htm htn
  refine ⟨?_, ?_, ?_⟩
  · rw [hshape, hver, hcv]
  · rw [hshape, hver, hcv]
    omega
  · rw [hshape, hman]

/-- C5: when the apply phase of a rollback fails, the operation reports an
error together with the new release record; the new record is persisted
with status `failed`, every previously `deployed` record of the name is
marked `superseded`, and no record of the name is left `deployed`. -/
theorem c5_rollback_failure (s : Store) (req : RollbackReq) (rel : Release)
    (hrel : (rollback false s req).release = some rel) :
    (rollback false s req).err = true ∧
    rel.status = Status.failed ∧
    rel ∈ (rollback false s req).store.releases ∧
    (∀ r ∈ s.releases, r.name = req.name → r.status = Status.deployed →
      { r with status := Status.superseded } ∈ (rollback false s req).store.releases) ∧
    (∀ r ∈ (rollback false s req).store.releases, r.name = req.name →
      r ≠ rel → r.status ≠ Status.deployed) ∧
    rel.status ≠ Status.deployed := by
  obtain ⟨current, target, hp, hshape⟩ := rollback_release_some hrel
  obtain ⟨herr, hrel2, hstore, -⟩ := rollback_parts hp false
  rw [hstore, rollbackStoreAfter_false]
  obtain ⟨-, -, -, -, -, hstat⟩ :=
    rolledBackRelease_fields false req (requestedTarget s req) current target
  simp only [Bool.false_eq_true, if_false] at hstat
  refine ⟨herr, by rw [hshape]; exact hstat, ?_, ?_, ?_, ?_⟩
  · rw [hshape]
    exact List.mem_append.mpr (Or.inr (List.mem_singleton.mpr rfl))
  · intro r hr hname hdep
    exact List.mem_append.mpr (Or.inl (superseded_image_mem hr hname hdep))
  · intro r hr hname hne hdep
    rcases List.mem_append.mp hr with hrs | hrr
    · exact (mem_supersedeDeployed hrs hdep).2 hname
    · have : r = rolledBackRelease false req (requestedTarget s req) current target := by
        simpa using hrr
      rw [← hshape] at this
      exact hne this
  · rw [hshape, hstat]
    simp

/-- C6: the new release created by a rollback carries the description
`"Rollback to <target version>"` when the request supplies no custom
description, and the supplied custom description otherwise. -/
theorem c6_rollback_description (ok : Bool) (s : Store) (req : RollbackReq) (rel : Release)
    (hrel : (rollback ok s req).release = some rel) :
    rel.description = (if req.description = ""
      then "Rollback to " ++ toString (requestedTarget s req) else req.description) := by
  obtain ⟨current, target, hp, hshape⟩ := rollback_release_some hrel
  obtain ⟨-, -, -, -, hdesc, -⟩ :=
    rolledBackRelease_fields ok req (requestedTarget s req) current target
  rw [hshape, hdesc]
  rfl

/-- C7: the hook set of the release created by a rollback is a copy of the
hooks recorded at the target historical version — same name, kind, path,
manifest, events and weight, position by position — and the only hooks
whose last-run record can differ from the target's copy are those carrying
a pre-rollback or post-rollback event (the batches the rollback runs over
that copied set). -/
theorem c7_rollback_hooks_from_target (ok : Bool) (s : Store) (req : RollbackReq)
    (rel target : Release)
    (ht : s.get req.name (requestedTarget s req) = some target)
    (hrel : (rollback ok s req).release = some rel) :
    List.Forall₂ (fun h0 h1 => hookSpec h0 = hookSpec h1 ∧
      (h1.lastRun ≠ h0.lastRun →
        HookEvent.preRollback ∈ h1.events ∨ HookEvent.postRollback ∈ h1.events))
      target.hooks rel.hooks := by
  obtain ⟨current, target2, hp, hshape⟩ := rollback_release_some hrel
  obtain ⟨-, hget, -⟩ := prepareRollback_some hp
  rw [hget] at ht
  have ht2 : target2 = target := Option.some.inj ht
  subst ht2
  rw [hshape]
  cases ok with
  | true =>
    exact hooksAfter_two_forall2 req.disableHooks target2.hooks
  | false =>
    exact List.Forall₂.imp
      (fun a b hab => ⟨hab.1, fun hne => Or.inl (hab.2 hne)⟩)
      (hooksAfter_forall2 req.disableHooks HookEvent.preRollback target2.hooks)

/-- C4 counterexample: in the store of `TestRollbackLatestSuperseded`
(version 1 `superseded`, version 2 `failed`, version 3 `deployed`) a
rollback whose version field is unspecified targets version 1 — the new
record copies v1's manifest and is described as "Rollback to 1" — and not
version 2, the immediately preceding version relative to the deployed
release, whose `failed` status is skipped.  This is exactly what the test
asserts, so the statuses of intermediate versions do matter. -/
theorem c4_counterexample :
    (lsStore.deployedAll "angry-panda").map Release.version = [3] ∧
    (rollback true lsStore lsReq).release.map Release.manifest = some "m1" ∧
    (rollback true lsStore lsReq).release.map Release.manifest ≠ some lsV2.manifest ∧
    (rollback true lsStore lsReq).release.map Release.description = some "Rollback to 1" ∧
    (rollback true lsStore lsReq).release.map Release.description ≠ some "Rollback to 2" := by
  refine ⟨rfl, rfl, by decide, rfl, by decide⟩

/-- C4 (amended): when a rollback request's version field is unspecified
(0), the target chosen is the most recent version strictly before the
latest one whose status is `deployed` or `superseded`; intermediate
versions with any other status (e.g. `failed`) are skipped, so the target
is not in general the deployed version minus one. -/
theorem c4_default_target_latest_active (s : Store) (req : RollbackReq) (ok : Bool)
    (rel : Release) (h0 : req.version = 0)
    (hpos : ∀ r ∈ s.releases, 0 < r.version)
    (hkey : ∀ r1 ∈ s.releases, ∀ r2 ∈ s.releases,
      r1.name = r2.name → r1.version = r2.version → r1 = r2)
    (hrel : (rollback ok s req).release = some rel) :
    ∃ target ∈ s.releases, target.name = req.name ∧
      target.version = rollbackTargetVersion s req.name (s.lastVersion req.name) ∧
      rel.manifest = target.manifest ∧
      (target.status = Status.deployed ∨ target.status = Status.superseded) ∧
      target.version < s.lastVersion req.name ∧
      (∀ r ∈ s.releases, r.name = req.name → r.version < s.lastVersion req.name →
        (r.status = Status.deployed ∨ r.status = Status.superseded) →
        r.version ≤ target.version) := by
  obtain ⟨current, target, hp, hshape⟩ := rollback_release_some hrel
  obtain ⟨hlast, hget, -⟩ := prepareRollback_some hp
  have htv : requestedTarget s req
      = rollbackTargetVersion s req.name (s.lastVersion req.name) := by
    unfold requestedTarget
    rw [if_pos h0]
  obtain ⟨htm, htn, htver⟩ := get_some hget
  have hman : rel.manifest = target.manifest := by
    obtain ⟨-, -, -, hm, -, -⟩ :=
      rolledBackRelease_fields ok req (requestedTarget s req) current target
    rw [hshape, hm]
  have hfold : rollbackTargetVersion s req.name (s.lastVersion req.name) = 0 ∨
      rollbackTargetVersion s req.name (s.lastVersion req.name) ∈
        ((s.releases.filter (fun r => r.name == req.name &&
          (r.status == Status.deployed || r.status == Status.superseded) &&
          decide (r.version < s.lastVersion req.name))).map Release.version) :=
    foldl_max_mem _ 0
  rcases hfold with hzero | hmemf
  · exfalso
    have hpt := hpos target htm
    rw [htver, htv, hzero] at hpt
    exact Nat.lt_irrefl 0 hpt
  · rcases List.mem_map.mp hmemf with ⟨rf, hrfF, hrfv⟩
    rcases List.mem_filter.mp hrfF with ⟨hrfMem, hrfPred⟩
    simp only [Bool.and_eq_true, Bool.or_eq_true, beq_iff_eq, decide_eq_true_eq] at hrfPred
    obtain ⟨⟨hrfName, hrfStat⟩, hrfLt⟩ := hrfPred
    have hrfEq : rf = target := by
      apply hkey rf hrfMem target htm
      · rw [hrfName, htn]
      · rw [hrfv, htver, htv]
    refine ⟨target, htm, htn, by rw [htver, htv], hman, ?_, ?_, ?_⟩
    · rw [← hrfEq]
      exact hrfStat
    · rw [← hrfEq]
      exact hrfLt
    · intro r hrMem hrName hrLt hrStat
      have hrF : r ∈ s.releases.filter (fun r => r.name == req.name &&
          (r.status == Status.deployed || r.status == Status.superseded) &&
          decide (r.version < s.lastVersion req.name)) := by
        apply List.mem_filter.mpr
        refine ⟨hrMem, ?_⟩
        rcases hrStat with hst | hst <;> simp [hrName, hst, hrLt]
      have hle := mem_le_foldl_max _ 0 _ (List.mem_map_of_mem Release.version hrF)
      rw [htver, htv]
      exact hle

/-- C1: every completed lifecycle transition — install, upgrade, rollback
(successful or failed) and uninstall — preserves the invariant that at most
one stored release version per name has status `deployed`; in particular a
successful rollback marks the new record `deployed` and, in the same
transition, moves every previously `deployed` record of the name to
`superseded`. -/
theorem c1_at_most_one_deployed (s : Store) (hs : uniqueDeployed s) :
    (∀ ok req rel s2 calls, install ok s req = some (rel, s2, calls) → uniqueDeployed s2) ∧
    (∀ ok destr req rel s2 calls, upgrade ok destr s req = some (rel, s2, calls) →
      uniqueDeployed s2) ∧
    (∀ ok req, uniqueDeployed (rollback ok s req).store) ∧
    (∀ req s2 calls, uninstall s req = some (s2, calls) → uniqueDeployed s2) ∧
    (∀ req rel, (rollback true s req).release = some rel →
      rel.status = Status.deployed ∧ rel ∈ (rollback true s req).store.releases ∧
      ∀ r ∈ s.releases, r.name = req.name → r.status = Status.deployed →
        { r with status := Status.superseded } ∈ (rollback true s req).store.releases) := by
  refine ⟨?_, ?_, ?_, ?_, ?_⟩
  · intro ok req rel s2 calls h
    unfold install at h
    split at h
    · rename_i hempty
      have hnone := isEmpty_filter_name hempty
      split at h
      · simp only [Option.some.injEq, Prod.mk.injEq] at h
        obtain ⟨-, hs2, -⟩ := h
        rw [← hs2]
        exact uniqueDeployed_insert_fresh hs (fun x hx hxn => absurd hxn (hnone x hx))
      · simp only [Option.some.injEq, Prod.mk.injEq] at h
        obtain ⟨-, hs2, -⟩ := h
        rw [← hs2]
        exact uniqueDeployed_insert_fresh hs (fun x hx hxn => absurd hxn (hnone x hx))
    · simp at h
  · intro ok destr req rel s2 calls h
    unfold upgrade at h
    split at h
    · simp at h
    · rename_i current hl
      split at h
      · simp at h
      · split at h
        · simp only [Option.some.injEq, Prod.mk.injEq] at h
          obtain ⟨-, hs2, -⟩ := h
          rw [← hs2]
          exact uniqueDeployed_insert_fresh (uniqueDeployed_supersedeDeployed req.name hs)
            (fun x hx hxn => no_deployed_after_supersedeDeployed x hx hxn)
        · simp only [Option.some.injEq, Prod.mk.injEq] at h
          obtain ⟨-, hs2, -⟩ := h
          rw [← hs2]
          cases destr with
          | true =>
            exact uniqueDeployed_insert_nondeployed
              (uniqueDeployed_supersedeDeployed req.name hs) (fun hd => Status.noConfusion hd)
          | false =>
            exact uniqueDeployed_insert_nondeployed hs (fun hd => Status.noConfusion hd)
  · intro ok req
    rcases rollback_store_cases ok s req with heq | ⟨c, t, hp, heq⟩
    · rw [heq]
      exact hs
    · rw [heq]
      cases ok with
      | true =>
        rw [rollbackStoreAfter_true]
        exact uniqueDeployed_insert_fresh (uniqueDeployed_supersede2 req.name c.version hs)
          (fun x hx hxn => no_deployed_after_supersede2 x hx hxn)
      | false =>
        rw [rollbackStoreAfter_false]
        apply uniqueDeployed_insert_nondeployed (uniqueDeployed_supersedeDeployed req.name hs)
        have hstat : (rolledBackRelease false req (requestedTarget s req) c t).status
            = Status.failed := by
          obtain ⟨-, -, -, -, -, hst⟩ :=
            rolledBackRelease_fields false req (requestedTarget s req) c t
          simpa using hst
        rw [hstat]
        decide
  · intro req s2 calls h
    unfold uninstall at h
    split at h
    · simp at h
    · rename_i current hl
      simp only [Option.some.injEq, Prod.mk.injEq] at h
      obtain ⟨hs2, -⟩ := h
      rw [← hs2]
      exact uniqueDeployed_markDeleted hs
  · intro req rel hrel
    obtain ⟨c, t, hp, hshape⟩ := rollback_release_some hrel
    obtain ⟨-, -, hstore, -⟩ := rollback_parts hp true
    have hstat : rel.status = Status.deployed := by
      obtain ⟨-, -, -, -, -, hst⟩ :=
        rolledBackRelease_fields true req (requestedTarget s req) c t
      rw [hshape]
      simpa using hst
    refine ⟨hstat, ?_, ?_⟩
    · rw [hstore, rollbackStoreAfter_true, hshape]
      exact List.mem_append.mpr (Or.inr (List.mem_singleton.mpr rfl))
    · intro r hr hname hdep
      rw [hstore, rollbackStoreAfter_true]
      exact List.mem_append.mpr (Or.inl (superseded_image_mem2 hr hname hdep))

/-- C2: every lifecycle transition preserves the invariant that the stored
version numbers of each release name form the contiguous sequence
`1, 2, …, k`; moreover every release created by a rollback gets a version
number strictly greater than every stored version of the name — version
numbers are never reused, also after an uninstall, since uninstall keeps
every record (it only changes a status). -/
theorem c2_contiguous_versions (s : Store) (hs : contiguousVersions s) :
    (∀ ok req rel s2 calls, install ok s req = some (rel, s2, calls) →
      contiguousVersions s2) ∧
    (∀ ok destr req rel s2 calls, upgrade ok destr s req = some (rel, s2, calls) →
      contiguousVersions s2) ∧
    (∀ ok req, contiguousVersions (rollback ok s req).store) ∧
    (∀ req s2 calls, uninstall s req = some (s2, calls) → contiguousVersions s2) ∧
    (∀ ok req rel, (rollback ok s req).release = some rel →
      ∀ r ∈ s.releases, r.name = req.name → r.version < rel.version) := by
  refine ⟨?_, ?_, ?_, ?_, ?_⟩
  · intro ok req rel s2 calls h
    unfold install at h
    split at h
    · rename_i hempty
      have hnil : s.versionsFor req.name = [] := versionsFor_eq_nil_of_isEmpty hempty
      have hnone := isEmpty_filter_name hempty
      have hgen : ∀ r2 : Release, r2.name = req.name → r2.version = 1 →
          contiguousVersions (insertRecord s r2) := by
        intro r2 hr2n hr2v r hr
        by_cases hrn : r.name = req.name
        · rw [hrn, versionsFor_insert, if_pos (by simp [hr2n]), hnil, hr2v]
          rfl
        · have hbeq : ¬((r2.name == r.name) = true) := by
            simp only [beq_iff_eq, hr2n]
            exact fun hx => hrn hx.symm
          rw [versionsFor_insert, if_neg hbeq]
          rcases List.mem_append.mp hr with hrs | hrr
          · exact hs r hrs
          · have heq : r = r2 := by simpa using hrr
            rw [heq] at hrn
            exact absurd hr2n hrn
      split at h
      · simp only [Option.some.injEq, Prod.mk.injEq] at h
        obtain ⟨-, hs2, -⟩ := h
        rw [← hs2]
        exact hgen _ rfl rfl
      · simp only [Option.some.injEq, Prod.mk.injEq] at h
        obtain ⟨-, hs2, -⟩ := h
        rw [← hs2]
        exact hgen _ rfl rfl
    · simp at h
  · intro ok destr req rel s2 calls h
    unfold upgrade at h
    split at h
    · simp at h
    · rename_i current hl
      obtain ⟨hcm, hcn, hcv⟩ := last_some hl
      have hpresent : ∃ c, c ∈ s.releases ∧ c.name = req.name := ⟨current, hcm, hcn⟩
      split at h
      · simp at h
      · split at h
        · simp only [Option.some.injEq, Prod.mk.injEq] at h
          obtain ⟨-, hs2, -⟩ := h
          rw [← hs2]
          exact contiguous_insert_step req.name hs
            (fun m => versionsFor_supersedeDeployed s req.name m)
            mem_name_supersedeDeployed rfl hpresent (by rw [← hcv])
        · simp only [Option.some.injEq, Prod.mk.injEq] at h
          obtain ⟨-, hs2, -⟩ := h
          rw [← hs2]
          cases destr with
          | true =>
            exact contiguous_insert_step req.name hs
              (fun m => versionsFor_supersedeDeployed s req.name m)
              mem_name_supersedeDeployed rfl hpresent (by rw [← hcv])
          | false =>
            exact contiguous_insert_step req.name hs (fun m => rfl)
              (fun x hx => ⟨x, hx, rfl⟩) rfl hpresent (by rw [← hcv])
  · intro ok req
    rcases rollback_store_cases ok s req with heq | ⟨c, t, hp, heq⟩
    · rw [heq]
      exact hs
    · obtain ⟨hl, -, -⟩ := prepareRollback_some hp
      obtain ⟨hcm, hcn, hcv⟩ := last_some hl
      have hpresent : ∃ x, x ∈ s.releases ∧ x.name = req.name := ⟨c, hcm, hcn⟩
      rw [heq]
      cases ok with
      | true =>
        rw [rollbackStoreAfter_true]
        obtain ⟨hn1, -, hver1, -, -, -⟩ :=
          rolledBackRelease_fields true req (requestedTarget s req) c t
        exact contiguous_insert_step req.name hs
          (fun m => by rw [versionsFor_supersede, versionsFor_supersedeDeployed])
          mem_name_supersede2 hn1 hpresent (by rw [hver1, hcv])
      | false =>
        rw [rollbackStoreAfter_false]
        obtain ⟨hn1, -, hver1, -, -, -⟩ :=
          rolledBackRelease_fields false req (requestedTarget s req) c t
        exact contiguous_insert_step req.name hs
          (fun m => versionsFor_supersedeDeployed s req.name m)
          mem_name_supersedeDeployed hn1 hpresent (by rw [hver1, hcv])
  · intro req s2 calls h
    unfold uninstall at h
    split at h
    · simp at h
    · rename_i current hl
      simp only [Option.some.injEq, Prod.mk.injEq] at h
      obtain ⟨hs2, -⟩ := h
      intro r hr
      rw [← hs2] at hr ⊢
      obtain ⟨y, hy, hyn⟩ := mem_name_of_mapRel (markDeleted_name _ _ _) hr
      have hx := hs y hy
      rw [hyn] at hx
      rw [versionsFor_markDeleted]
      exact hx
  · intro ok req rel hrel r hr hname
    obtain ⟨c, t, hp, hshape⟩ := rollback_release_some hrel
    obtain ⟨hl, -, -⟩ := prepareRollback_some hp
    obtain ⟨-, -, hcv⟩ := last_some hl
    obtain ⟨-, -, hver, -, -, -⟩ :=
      rolledBackRelease_fields ok req (requestedTarget s req) c t
    have hle := version_le_lastVersion hr hname
    rw [hshape, hver, hcv]
    omega

/-- C8: with `DisableHooks` set on a request, the Hook Executor is
short-circuited for every lifecycle operation — it performs zero cluster
calls — and every hook of the resulting release keeps an unset last-run
record (given that all stored and requested hooks start unset). -/
theorem c8_disable_hooks_noop (s : Store)
    (hun : ∀ r ∈ s.releases, ∀ hk ∈ r.hooks, hk.lastRun = none) :
    (∀ ok req, req.disableHooks = true →
      (rollback ok s req).clusterHookCalls = 0 ∧
      ∀ rel, (rollback ok s req).release = some rel →
        ∀ hk ∈ rel.hooks, hk.lastRun = none) ∧
    (∀ req s2 calls, req.disableHooks = true → uninstall s req = some (s2, calls) →
      calls = 0 ∧ ∀ r ∈ s2.releases, ∀ hk ∈ r.hooks, hk.lastRun = none) ∧
    (∀ ok req rel s2 calls, req.disableHooks = true →
      (∀ hk ∈ req.hooks, hk.lastRun = none) →
      install ok s req = some (rel, s2, calls) →
      calls = 0 ∧ ∀ hk ∈ rel.hooks, hk.lastRun = none) ∧
    (∀ ok destr req rel s2 calls, req.disableHooks = true →
      (∀ hk ∈ req.hooks, hk.lastRun = none) →
      upgrade ok destr s req = some (rel, s2, calls) →
      calls = 0 ∧ ∀ hk ∈ rel.hooks, hk.lastRun = none) := by
  refine ⟨?_, ?_, ?_, ?_⟩
  · intro ok req hd
    cases hp : prepareRollback s req with
    | none =>
      have hres : rollback ok s req = ⟨true, none, s, 0⟩ := by
        unfold rollback
        rw [hp]
      rw [hres]
      exact ⟨rfl, fun rel h => by simp at h⟩
    | some ct =>
      obtain ⟨c, t⟩ := ct
      obtain ⟨-, hrel2, -, hcalls⟩ := rollback_parts hp ok
      refine ⟨?_, ?_⟩
      · rw [hcalls]
        unfold rollbackCalls
        rw [hd]
        cases ok <;> simp [hookCalls_true]
      · intro rel h
        rw [hrel2] at h
        have heq : rel = rolledBackRelease ok req (requestedTarget s req) c t :=
          (Option.some.inj h).symm
        obtain ⟨-, hget, -⟩ := prepareRollback_some hp
        obtain ⟨htm, -, -⟩ := get_some hget
        rw [heq, rolledBackRelease_hooks_disabled ok req (requestedTarget s req) c t hd]
        exact hun t htm
  · intro req s2 calls hd h
    unfold uninstall at h
    split at h
    · simp at h
    · rename_i current hl
      obtain ⟨hcm, -, -⟩ := last_some hl
      simp only [Option.some.injEq, Prod.mk.injEq] at h
      obtain ⟨hs2, hcalls⟩ := h
      refine ⟨?_, ?_⟩
      · rw [← hcalls, hd]
        simp [hookCalls_true]
      · intro r hr hk hkmem
        rw [← hs2] at hr
        rcases List.mem_map.mp hr with ⟨x, hx, hex⟩
        rw [← hex] at hkmem
        unfold markDeleted at hkmem
        split at hkmem
        · simp only [hd, hooksAfter_true] at hkmem
          exact hun current hcm hk hkmem
        · exact hun x hx hk hkmem
  · intro ok req rel s2 calls hd hreqh h
    unfold install at h
    split at h
    · split at h
      · simp only [Option.some.injEq, Prod.mk.injEq] at h
        obtain ⟨hrel, -, hcalls⟩ := h
        refine ⟨?_, ?_⟩
        · rw [← hcalls, hd]
          simp [hookCalls_true]
        · intro hk hkm
          rw [← hrel] at hkm
          simp only [hd, hooksAfter_true] at hkm
          exact hreqh hk hkm
      · simp only [Option.some.injEq, Prod.mk.injEq] at h
        obtain ⟨hrel, -, hcalls⟩ := h
        refine ⟨?_, ?_⟩
        · rw [← hcalls, hd]
          simp [hookCalls_true]
        · intro hk hkm
          rw [← hrel] at hkm
          simp only [hd, hooksAfter_true] at hkm
          exact hreqh hk hkm
    · simp at h
  · intro ok destr req rel s2 calls hd hreqh h
    unfold upgrade at h
    split at h
    · simp at h
    · rename_i current hl
      split at h
      · simp at h
      · split at h
        · simp only [Option.some.injEq, Prod.mk.injEq] at h
          obtain ⟨hrel, -, hcalls⟩ := h
          refine ⟨?_, ?_⟩
          · rw [← hcalls, hd]
            simp [hookCalls_true]
          · intro hk hkm
            rw [← hrel] at hkm
            simp only [hd, hooksAfter_true] at hkm
            exact hreqh hk hkm
        · simp only [Option.some.injEq, Prod.mk.injEq] at h
          obtain ⟨hrel, -, hcalls⟩ := h
          refine ⟨?_, ?_⟩
          · rw [← hcalls, hd]
            simp [hookCalls_true]
          · intro hk hkm
            rw [← hrel] at hkm
            simp only [hd, hooksAfter_true] at hkm
            exact hreqh hk hkm

/-- C9: a rollback or uninstall on a release name leaves every record
stored under any other name untouched — the sub-list of records of all
other names is exactly the same before and after the operation. -/
theorem c9_frame_other_names (s : Store) (n : String) :
    (∀ ok req, req.name = n →
      (rollback ok s req).store.releases.filter (fun r => !(r.name == n)) =
        s.releases.filter (fun r => !(r.name == n))) ∧
    (∀ req s2 calls, req.name = n → uninstall s req = some (s2, calls) →
      s2.releases.filter (fun r => !(r.name == n)) =
        s.releases.filter (fun r => !(r.name == n))) := by
  constructor
  · intro ok req hn
    subst hn
    rcases rollback_store_cases ok s req with heq | ⟨c, t, hp, heq⟩
    · rw [heq]
    · rw [heq]
      cases ok with
      | true =>
        rw [rollbackStoreAfter_true]
        rw [filter_ne_insert _ _ _
          (rolledBackRelease_fields true req (requestedTarget s req) c t).1]
        show ((s.releases.map (supersedeRel req.name)).map
          (supersedeAt req.name c.version)).filter _ = _
        rw [filter_ne_mapRel _ _ (supersedeAt_name _ _) (fun r hr => supersedeAt_of_ne hr)]
        rw [filter_ne_mapRel _ _ (supersedeRel_name _) (fun r hr => supersedeRel_of_ne hr)]
      | false =>
        rw [rollbackStoreAfter_false]
        rw [filter_ne_insert _ _ _
          (rolledBackRelease_fields false req (requestedTarget s req) c t).1]
        show (s.releases.map (supersedeRel req.name)).filter _ = _
        rw [filter_ne_mapRel _ _ (supersedeRel_name _) (fun r hr => supersedeRel_of_ne hr)]
  · intro req s2 calls hn h
    subst hn
    unfold uninstall at h
    split at h
    · simp at h
    · rename_i current hl
      simp only [Option.some.injEq, Prod.mk.injEq] at h
      obtain ⟨hs2, -⟩ := h
      rw [← hs2]
      exact filter_ne_mapRel _ _ (markDeleted_name _ _ _) (fun r hr => markDeleted_of_ne hr)
        s.releases

/-- Witness for C1: the invariant hypothesis holds on the stub store and
the theorem applies to a concrete successful rollback. -/
theorem c1_witness : uniqueDeployed (rollback true stubStore stubReq).store :=
  (c1_at_most_one_deployed stubStore (by unfold uniqueDeployed; decide)).2.2.1 true stubReq

/-- Witness for C2: the contiguity hypothesis holds on the stub store and
the theorem applies to a concrete successful rollback. -/
theorem c2_witness : contiguousVersions (rollback true stubStore stubReq).store :=
  (c2_contiguous_versions stubStore (by unfold contiguousVersions; decide)).2.2.1 true stubReq

/-- Witness for C3 at a concrete rollback to the explicit version 1. -/
theorem c3_witness :
    stubRollbackRel.version = stubStore.lastVersion "angry-panda" + 1 ∧
    1 < stubRollbackRel.version ∧
    stubRollbackRel.manifest = stubV1.manifest :=
  c3_rollback_copies_target true stubStore c3Req stubRollbackRel stubV1 (by decide) (by decide)
    (by decide)

/-- Witness for the amended C4 at a concrete version-0 rollback. -/
theorem c4_witness :
    ∃ target ∈ stubStore.releases, target.name = stubReq.name ∧
      target.version = rollbackTargetVersion stubStore stubReq.name
        (stubStore.lastVersion stubReq.name) ∧
      stubRollbackRel.manifest = target.manifest ∧
      (target.status = Status.deployed ∨ target.status = Status.superseded) ∧
      target.version < stubStore.lastVersion stubReq.name ∧
      (∀ r ∈ stubStore.releases, r.name = stubReq.name →
        r.version < stubStore.lastVersion stubReq.name →
        (r.status = Status.deployed ∨ r.status = Status.superseded) →
        r.version ≤ target.version) :=
  c4_default_target_latest_active stubStore stubReq true stubRollbackRel rfl (by decide)
    (by decide) (by decide)

/-- Witness for C5 at a concrete failed rollback. -/
theorem c5_witness :
    (rollback false stubStore stubReq).err = true ∧
    stubFailedRel.status = Status.failed ∧
    stubFailedRel ∈ (rollback false stubStore stubReq).store.releases ∧
    (∀ r ∈ stubStore.releases, r.name = stubReq.name → r.status = Status.deployed →
      { r with status := Status.superseded }
        ∈ (rollback false stubStore stubReq).store.releases) ∧
    (∀ r ∈ (rollback false stubStore stubReq).store.releases, r.name = stubReq.name →
      r ≠ stubFailedRel → r.status ≠ Status.deployed) ∧
    stubFailedRel.status ≠ Status.deployed :=
  c5_rollback_failure stubStore stubReq stubFailedRel (by decide)

/-- Witness for C6 at a concrete rollback with the default description. -/
theorem c6_witness :
    stubRollbackRel.description = (if stubReq.description = ""
      then "Rollback to " ++ toString (requestedTarget stubStore stubReq)
      else stubReq.description) :=
  c6_rollback_description true stubStore stubReq stubRollbackRel (by decide)

/-- Witness for C7 at a concrete rollback: the new release's hooks are the
copy of version 1's hooks. -/
theorem c7_witness :
    List.Forall₂ (fun h0 h1 => hookSpec h0 = hookSpec h1 ∧
      (h1.lastRun ≠ h0.lastRun →
        HookEvent.preRollback ∈ h1.events ∨ HookEvent.postRollback ∈ h1.events))
      stubV1.hooks stubRollbackRel.hooks :=
  c7_rollback_hooks_from_target true stubStore stubReq stubRollbackRel stubV1 (by decide)
    (by decide)

/-- Witness for C8 at a concrete rollback with hooks disabled. -/
theorem c8_witness :
    (rollback true stubStore c8Req).clusterHookCalls = 0 ∧
    ∀ rel, (rollback true stubStore c8Req).release = some rel →
      ∀ hk ∈ rel.hooks, hk.lastRun = none :=
  (c8_disable_hooks_noop stubStore (by decide)).1 true c8Req rfl

/-- Witness for C9 at a concrete rollback: records of other names are
untouched. -/
theorem c9_witness :
    (rollback true stubStore stubReq).store.releases.filter
        (fun r => !(r.name == "angry-panda")) =
      stubStore.releases.filter (fun r => !(r.name == "angry-panda")) :=
  (c9_frame_other_names stubStore "angry-panda").1 true stubReq rfl

end Claims

end DeploymentManager
